import Mathlib

/-!
Shallow embedding of the dependency resolver of `src/app.py` (a Flask app
downloading Fabric mods from the Modrinth registry).

The registry is modelled as an explicit finite state: a table mapping a
project id to its slug (the `GET /project/{id}` endpoint; absence models a
non-200 response) and a table mapping a `(slug, mc_version)` pair to the
version list returned by `GET /project/{slug}/version` filtered by loader
and game version (absence models a non-200 response, which the source
collapses with an empty list).

Python dicts are modelled as association lists with insertion-order
semantics (`dictInsert` overwrites in place, appends fresh keys at the
end), the worklist `to_process` as a Lean list whose head is the Python
list end (`pop` takes the head, `append` conses), and the `while` loop as
a fuel-indexed recursion `walkAux` returning `none` when fuel runs out;
`fuelFor` computes a fuel that is proved sufficient. The walk is
instrumented with the trace of expanded project ids and the trace of
registry queries it issues, so that dedup and query-count properties can
be stated.
-/

namespace ModsDownloader

/-- One entry of a version record's `files` list: filename and download URL. -/
structure DistFile where
  filename : String
  url : String
deriving DecidableEq, Repr

/-- One entry of a version record's `dependencies` list. -/
structure Dependency where
  dependency_type : String
  project_id : String
deriving DecidableEq, Repr

/-- A version record as returned by the Modrinth version-list endpoint,
restricted to the fields the source reads. -/
structure Version where
  project_id : String
  files : List DistFile
  dependencies : List Dependency
deriving DecidableEq, Repr

/-- The registry state the app queries over HTTP. `projectSlug` models
`GET /project/{id}` (absence = non-200); `modVersions` models
`GET /project/{slug}/version` filtered by loader fabric and the given
game version (absence = non-200, which the source treats as `[]`). -/
structure Registry where
  projectSlug : List (String × String)
  modVersions : List ((String × String) × List Version)
deriving DecidableEq, Repr

/-- A network query issued against the registry. -/
inductive Query where
  | projectLookup (project_id : String)
  | listVersions (slug : String) (mc_version : String)
deriving DecidableEq, Repr

/-- First-match association-list lookup. -/
def lookupKey {α β : Type} [DecidableEq α] (k : α) : List (α × β) → Option β
  | [] => none
  | p :: rest => if k = p.1 then some p.2 else lookupKey k rest

/-- `fetch_mod_versions(slug, mc_version)` (src/app.py lines 28-38): the
version list for the slug under the loader/game-version filter, `[]` when
the registry has no entry (non-200). -/
def fetch_mod_versions (reg : Registry) (slug : String) (mc_version : String) : List Version :=
  (lookupKey (slug, mc_version) reg.modVersions).getD []

/-- Python-dict insertion: overwrite the value in place when the key is
present, append a fresh entry otherwise (src/app.py line 58). -/
def dictInsert : List (String × String) → String → String → List (String × String)
  | [], k, v => [(k, v)]
  | p :: rest, k, v => if p.1 = k then (k, v) :: rest else p :: dictInsert rest k v

/-- The key list of a modelled dict. -/
def dictKeys (m : List (String × String)) : List String :=
  m.map Prod.fst

/-- Python `dict.update`: insert every entry of `l` into `m` in order
(src/app.py line 234). -/
def dictUpdate (m : List (String × String)) (l : List (String × String)) :
    List (String × String) :=
  l.foldl (fun acc p => dictInsert acc p.1 p.2) m

/-- `add_version_files(ver)` (src/app.py lines 56-58): write every file of
the version into the result dict, last write winning per filename. -/
def add_version_files (files : List (String × String)) (ver : Version) :
    List (String × String) :=
  ver.files.foldl (fun m f => dictInsert m f.filename f.url) files

/-- One iteration of the dependency loop (src/app.py lines 73-85) on one
`dep` entry, acting on the pair (frontier, query trace). A non-required
dependency is skipped without any query; a required one issues the project
lookup, and on success the version-list query, pushing the head version
onto the frontier when the list is non-empty. -/
def depStep (reg : Registry) (mc_version : String)
    (acc : List Version × List Query) (dep : Dependency) :
    List Version × List Query :=
  if dep.dependency_type = "required" then
    let qs := acc.2 ++ [Query.projectLookup dep.project_id]
    match lookupKey dep.project_id reg.projectSlug with
    | none => (acc.1, qs)
    | some slug =>
      let qs := qs ++ [Query.listVersions slug mc_version]
      match fetch_mod_versions reg slug mc_version with
      | [] => (acc.1, qs)
      | v :: _ => (v :: acc.1, qs)
  else acc

/-- Result of a finished walk: the filename-to-URL dict, the project ids
expanded (in expansion order) and the registry queries issued (in order). -/
structure WalkResult where
  files : List (String × String)
  expanded : List String
  queries : List Query
deriving DecidableEq, Repr

/-- The `while to_process` loop of `resolve_dependencies` (src/app.py
lines 63-85), fuel-indexed. The frontier list head is the Python list end:
`to_process.pop()` takes the head and `to_process.append` conses. Returns
`none` only when the fuel runs out with a non-empty frontier. -/
def walkAux (reg : Registry) (mc_version : String) :
    Nat → List Version → List String → List (String × String) →
    List String → List Query → Option WalkResult
  | _, [], _, files, expanded, queries => some ⟨files, expanded, queries⟩
  | 0, _ :: _, _, _, _, _ => none
  | fuel + 1, ver :: rest, processed, files, expanded, queries =>
    if ver.project_id ∈ processed then
      walkAux reg mc_version fuel rest processed files expanded queries
    else
      let acc := ver.dependencies.foldl (depStep reg mc_version) (rest, queries)
      walkAux reg mc_version fuel acc.1 (ver.project_id :: processed)
        (add_version_files files ver) (expanded ++ [ver.project_id]) acc.2

/-- The required dependencies of a version (the only ones the walk follows). -/
def requiredDeps (v : Version) : List Dependency :=
  v.dependencies.filter (fun d => d.dependency_type = "required")

/-- Every version record stored anywhere in the registry. -/
def registryVersions (reg : Registry) : List Version :=
  (reg.modVersions.map Prod.snd).flatten

/-- Every project id a walk seeded with `seed` can ever expand. -/
def allPids (reg : Registry) (seed : Version) : List String :=
  seed.project_id :: (registryVersions reg).map Version.project_id

/-- Upper bound on the number of frontier pushes any single expansion can
perform: total count of required dependency edges over seed and registry. -/
def depBound (reg : Registry) (seed : Version) : Nat :=
  ((seed :: registryVersions reg).map (fun v => (requiredDeps v).length)).sum

/-- A fuel amount proved sufficient for the walk to drain its frontier. -/
def fuelFor (reg : Registry) (seed : Version) : Nat :=
  (allPids reg seed).dedup.length * (depBound reg seed + 1) + 1

/-- `resolve_dependencies(version_data, mc_version)` (src/app.py lines
49-87): run the walk from the single seed with fresh state and return the
accumulated filename-to-URL dict. -/
def resolve_dependencies (reg : Registry) (version_data : Version) (mc_version : String) :
    List (String × String) :=
  match walkAux reg mc_version (fuelFor reg version_data) [version_data] [] [] [] [] with
  | some r => r.files
  | none => []

/-- The trace of project ids expanded by `resolve_dependencies`. -/
def resolve_expanded (reg : Registry) (version_data : Version) (mc_version : String) :
    List String :=
  match walkAux reg mc_version (fuelFor reg version_data) [version_data] [] [] [] [] with
  | some r => r.expanded
  | none => []

/-- The trace of registry queries issued by `resolve_dependencies`. -/
def resolve_queries (reg : Registry) (version_data : Version) (mc_version : String) :
    List Query :=
  match walkAux reg mc_version (fuelFor reg version_data) [version_data] [] [] [] [] with
  | some r => r.queries
  | none => []

/-- One iteration of the per-root loop of the `/api/download` handler
(src/app.py lines 228-234): fetch the root's version list; when empty,
skip the root; otherwise resolve the head version's closure and merge its
files into the aggregate dict. The query trace records the root fetch and
the queries the walk issued. -/
def apiStep (reg : Registry) (mc : String)
    (acc : List (String × String) × List Query) (slug : String) :
    List (String × String) × List Query :=
  let qs := acc.2 ++ [Query.listVersions slug mc]
  match fetch_mod_versions reg slug mc with
  | [] => (acc.1, qs)
  | latest :: _ =>
    (dictUpdate acc.1 (resolve_dependencies reg latest mc),
     qs ++ resolve_queries reg latest mc)

/-- The `/api/download` handler (src/app.py lines 216-237) up to the point
where the zip archive is built: validation, the per-slug resolution loop,
and the final emptiness check, instrumented with the full query trace.
`mc_version` and `mods` model `data.get(...)`, so `none` is a missing JSON
field; the Python truthiness test rejects both a missing and an empty
`mc_version` and a missing and an empty mod list with HTTP 400. On the
empty aggregate dict the handler aborts with HTTP 404. -/
def api_download_run (reg : Registry) (mc_version : Option String)
    (mods : Option (List String)) :
    Except Nat (List (String × String)) × List Query :=
  let mod_slugs := mods.getD []
  if mc_version = none ∨ mc_version = some "" ∨ mod_slugs = [] then
    (Except.error 400, [])
  else
    let st := mod_slugs.foldl (apiStep reg (mc_version.getD "")) ([], [])
    if st.1 = [] then (Except.error 404, st.2) else (Except.ok st.1, st.2)

/-- The HTTP outcome of `/api/download`: an error status or the
filename-to-URL dict handed to the zip builder. -/
def api_download (reg : Registry) (mc_version : Option String)
    (mods : Option (List String)) : Except Nat (List (String × String)) :=
  (api_download_run reg mc_version mods).1

/-- All registry queries `/api/download` issues before answering. -/
def api_download_queries (reg : Registry) (mc_version : Option String)
    (mods : Option (List String)) : List Query :=
  (api_download_run reg mc_version mods).2

/-- Drop every non-required dependency edge from a version record. -/
def stripVersion (v : Version) : Version :=
  { v with dependencies := requiredDeps v }

/-- Drop every non-required dependency edge from every stored version. -/
def stripRegistry (reg : Registry) : Registry :=
  { reg with modVersions := reg.modVersions.map (fun e => (e.1, e.2.map stripVersion)) }

/-- A search hit as parsed from the Modrinth search endpoint. -/
structure SearchHit where
  slug : String
  title : String
deriving DecidableEq, Repr

/-- `fetch_fabric_mods` (src/app.py lines 15-26) over an explicit HTTP
layer: the argument is the outcome of `requests.get` on the search
endpoint, either a raised exception (`Except.error`) or a status code with
the parsed hit list. The source checks only the status code, so a raised
exception propagates to the caller. -/
def fetch_fabric_mods (http : Except String (Nat × List SearchHit)) :
    Except String (List (String × String)) := do
  let resp ← http
  if resp.1 = 200 then
    pure (resp.2.map (fun mod => (mod.slug, mod.title)))
  else
    pure []

/-- `fetch_mod_versions` (src/app.py lines 28-38) over an explicit HTTP
layer, as for `fetch_fabric_mods`: non-200 statuses are recovered as `[]`,
but a raised exception propagates. -/
def fetch_mod_versions_http (http : Except String (Nat × List Version)) :
    Except String (List Version) := do
  let resp ← http
  if resp.1 ≠ 200 then
    pure []
  else
    pure resp.2

/-! Concrete registry states used by scenario theorems and counterexamples. -/

/-- The chosen sodium version of the spec scenario: one file
`sodium.jar -> url1`, one required edge to project id `P-fabric-api`. -/
def sodiumVer : Version :=
  ⟨"P-sodium", [⟨"sodium.jar", "url1"⟩], [⟨"required", "P-fabric-api"⟩]⟩

/-- The fabric-api version of the spec scenario: one file
`fabric-api.jar -> url2`, no dependencies. -/
def fabricVer : Version :=
  ⟨"P-fabric-api", [⟨"fabric-api.jar", "url2"⟩], []⟩

/-- Registry of the successful sodium scenario. -/
def regScenario : Registry :=
  ⟨[("P-fabric-api", "fabric-api")],
   [(("sodium", "1.20.1"), [sodiumVer]),
    (("fabric-api", "1.20.1"), [fabricVer])]⟩

/-- Registry of the broken-dependency scenario: fabric-api has an empty
version list for release 1.20.1. -/
def regBrokenDep : Registry :=
  ⟨[("P-fabric-api", "fabric-api")],
   [(("sodium", "1.20.1"), [sodiumVer]),
    (("fabric-api", "1.20.1"), [])]⟩

/-- Registry where the sole root has a matching version record whose file
list is empty. -/
def regEmptyFiles : Registry :=
  ⟨[], [(("r", "1.20.1"), [⟨"P-r", [], []⟩])]⟩

/-- Registry with two roots `r1`, `r2` both carrying a required edge to
the same shared project `P-shared`. -/
def regShared : Registry :=
  ⟨[("P-shared", "shared")],
   [(("r1", "1.20.1"), [⟨"P-r1", [⟨"r1.jar", "u1"⟩], [⟨"required", "P-shared"⟩]⟩]),
    (("r2", "1.20.1"), [⟨"P-r2", [⟨"r2.jar", "u2"⟩], [⟨"required", "P-shared"⟩]⟩]),
    (("shared", "1.20.1"), [⟨"P-shared", [⟨"shared.jar", "u3"⟩], []⟩])]⟩

/-- The version of project A in the cyclic registry below. -/
def cycleVerA : Version :=
  ⟨"P-a", [⟨"a.jar", "ua"⟩], [⟨"required", "P-b"⟩]⟩

/-- Registry with a dependency cycle: project A requires B and B requires A. -/
def regCycle : Registry :=
  ⟨[("P-a", "a"), ("P-b", "b")],
   [(("a", "1.20.1"), [cycleVerA]),
    (("b", "1.20.1"), [⟨"P-b", [⟨"b.jar", "ub"⟩], [⟨"required", "P-a"⟩]⟩])]⟩

/-- Termination measure of the walk: distinct expandable project ids not
yet processed, weighted by the maximum number of pushes one expansion can
perform, plus the frontier length. -/
def walkMeasure (reg : Registry) (seed : Version) (frontier : List Version)
    (processed : List String) : Nat :=
  ((allPids reg seed).toFinset \ processed.toFinset).card * (depBound reg seed + 1)
    + frontier.length

/-! ### Association-list and dict lemmas -/

theorem lookupKey_mem {α β : Type} [DecidableEq α] {k : α} {b : β} {l : List (α × β)}
    (h : lookupKey k l = some b) : (k, b) ∈ l := by
  induction l with
  | nil => simp [lookupKey] at h
  | cons p rest ih =>
    by_cases hk : k = p.1
    · rw [lookupKey, if_pos hk] at h
      injection h with h
      subst h
      subst hk
      exact List.mem_cons_self _ _
    · rw [lookupKey, if_neg hk] at h
      exact List.mem_cons_of_mem _ (ih h)

theorem dictKeys_nil : dictKeys [] = [] := rfl

theorem dictKeys_cons (p : String × String) (l : List (String × String)) :
    dictKeys (p :: l) = p.1 :: dictKeys l := rfl

theorem dictKeys_insert (m : List (String × String)) (k v : String) :
    dictKeys (dictInsert m k v) =
      if k ∈ dictKeys m then dictKeys m else dictKeys m ++ [k] := by
  induction m with
  | nil => simp [dictInsert, dictKeys]
  | cons p rest ih =>
    by_cases hp : p.1 = k
    · rw [dictInsert, if_pos hp]
      simp [dictKeys, hp]
    · rw [dictInsert, if_neg hp]
      have hne : ¬ k = p.1 := fun h => hp h.symm
      by_cases hk : k ∈ dictKeys rest
      · have hmem : k ∈ dictKeys (p :: rest) := by
          rw [dictKeys_cons]; exact List.mem_cons_of_mem _ hk
        rw [if_pos hmem, dictKeys_cons, dictKeys_cons, ih, if_pos hk]
      · have hmem : k ∉ dictKeys (p :: rest) := by
          rw [dictKeys_cons]; simp [hne, hk]
        rw [if_neg hmem, dictKeys_cons, dictKeys_cons, ih, if_neg hk, List.cons_append]

theorem dictKeys_subset_insert (m : List (String × String)) (k v : String) :
    dictKeys m ⊆ dictKeys (dictInsert m k v) := by
  rw [dictKeys_insert]
  split
  · exact fun a h => h
  · exact fun a h => List.mem_append_left _ h

theorem mem_dictKeys_insert_self (m : List (String × String)) (k v : String) :
    k ∈ dictKeys (dictInsert m k v) := by
  rw [dictKeys_insert]
  split
  · assumption
  · exact List.mem_append_right _ (List.mem_singleton.mpr rfl)

theorem nodup_dictKeys_insert {m : List (String × String)} (k v : String)
    (h : (dictKeys m).Nodup) : (dictKeys (dictInsert m k v)).Nodup := by
  rw [dictKeys_insert]
  split
  · exact h
  · next hk =>
    rw [List.nodup_append]
    exact ⟨h, List.nodup_singleton k, fun a ha hb => hk ((List.mem_singleton.mp hb) ▸ ha)⟩

theorem lookupKey_dictInsert_self (m : List (String × String)) (k v : String) :
    lookupKey k (dictInsert m k v) = some v := by
  induction m with
  | nil => simp [dictInsert, lookupKey]
  | cons p rest ih =>
    by_cases hp : p.1 = k
    · rw [dictInsert, if_pos hp, lookupKey, if_pos rfl]
    · rw [dictInsert, if_neg hp, lookupKey, if_neg (fun h => hp h.symm)]
      exact ih

theorem lookupKey_dictInsert_ne (m : List (String × String)) {a k : String} (v : String)
    (h : a ≠ k) : lookupKey a (dictInsert m k v) = lookupKey a m := by
  induction m with
  | nil => simp [dictInsert, lookupKey, h]
  | cons p rest ih =>
    by_cases hp : p.1 = k
    · rw [dictInsert, if_pos hp, lookupKey, if_neg (hp ▸ h), lookupKey,
        if_neg (fun hh => h (hh.trans hp))]
    · rw [dictInsert, if_neg hp]
      by_cases hap : a = p.1
      · rw [lookupKey, if_pos hap, lookupKey, if_pos hap]
      · rw [lookupKey, if_neg hap, lookupKey, if_neg hap]
        exact ih

theorem dictUpdate_nil (m : List (String × String)) : dictUpdate m [] = m := rfl

theorem dictUpdate_cons (m : List (String × String)) (p : String × String)
    (t : List (String × String)) :
    dictUpdate m (p :: t) = dictUpdate (dictInsert m p.1 p.2) t := rfl

theorem dictKeys_subset_update (l : List (String × String)) :
    ∀ m, dictKeys m ⊆ dictKeys (dictUpdate m l) := by
  induction l with
  | nil => exact fun m a h => h
  | cons p t ih =>
    intro m a h
    rw [dictUpdate_cons]
    exact ih (dictInsert m p.1 p.2) (dictKeys_subset_insert m p.1 p.2 h)

theorem mem_dictKeys_update_right (l : List (String × String)) :
    ∀ m {k}, k ∈ l.map Prod.fst → k ∈ dictKeys (dictUpdate m l) := by
  induction l with
  | nil => intro m k h; simp at h
  | cons p t ih =>
    intro m k h
    rw [dictUpdate_cons]
    rcases List.mem_cons.mp h with h | h
    · exact dictKeys_subset_update t _ (h ▸ mem_dictKeys_insert_self m p.1 p.2)
    · exact ih _ h

theorem nodup_dictKeys_update (l : List (String × String)) :
    ∀ {m}, (dictKeys m).Nodup → (dictKeys (dictUpdate m l)).Nodup := by
  induction l with
  | nil => exact fun h => h
  | cons p t ih =>
    intro m h
    rw [dictUpdate_cons]
    exact ih (nodup_dictKeys_insert p.1 p.2 h)

theorem lookupKey_dictUpdate (l : List (String × String)) :
    ∀ m (a : String),
      lookupKey a (dictUpdate m l) =
        ((l.reverse.find? (fun p => a == p.1)).map Prod.snd).or (lookupKey a m) := by
  induction l with
  | nil => intro m a; simp [dictUpdate_nil]
  | cons p t ih =>
    intro m a
    rw [dictUpdate_cons, ih]
    rw [List.reverse_cons, List.find?_append]
    cases hfind : t.reverse.find? (fun p => a == p.1) with
    | some q => simp
    | none =>
      by_cases ha : a = p.1
      · simp [ha, lookupKey_dictInsert_self]
      · simp [ha, lookupKey_dictInsert_ne m p.2 ha]

/-! ### Lemmas about `add_version_files` -/

theorem add_version_files_eq_update (m : List (String × String)) (ver : Version) :
    add_version_files m ver = dictUpdate m (ver.files.map (fun f => (f.filename, f.url))) := by
  unfold add_version_files dictUpdate
  rw [List.foldl_map]

theorem dictKeys_subset_add_version_files (m : List (String × String)) (ver : Version) :
    dictKeys m ⊆ dictKeys (add_version_files m ver) := by
  rw [add_version_files_eq_update]
  exact dictKeys_subset_update _ m

theorem mem_dictKeys_add_version_files (m : List (String × String)) {ver : Version}
    {f : DistFile} (hf : f ∈ ver.files) :
    f.filename ∈ dictKeys (add_version_files m ver) := by
  rw [add_version_files_eq_update]
  apply mem_dictKeys_update_right
  rw [List.map_map]
  exact List.mem_map.mpr ⟨f, hf, rfl⟩

theorem nodup_dictKeys_add_version_files {m : List (String × String)} (ver : Version)
    (h : (dictKeys m).Nodup) : (dictKeys (add_version_files m ver)).Nodup := by
  rw [add_version_files_eq_update]
  exact nodup_dictKeys_update _ h

/-! ### Equation lemmas for the walk -/

theorem walkAux_nil (reg : Registry) (mc : String) (fuel : Nat) (processed : List String)
    (files : List (String × String)) (expanded : List String) (queries : List Query) :
    walkAux reg mc fuel [] processed files expanded queries =
      some ⟨files, expanded, queries⟩ := by
  cases fuel <;> rfl

theorem walkAux_zero_cons (reg : Registry) (mc : String) (v : Version) (rest : List Version)
    (processed : List String) (files : List (String × String)) (expanded : List String)
    (queries : List Query) :
    walkAux reg mc 0 (v :: rest) processed files expanded queries = none := rfl

theorem walkAux_succ_cons (reg : Registry) (mc : String) (fuel : Nat) (v : Version)
    (rest : List Version) (processed : List String) (files : List (String × String))
    (expanded : List String) (queries : List Query) :
    walkAux reg mc (fuel + 1) (v :: rest) processed files expanded queries =
      if v.project_id ∈ processed then
        walkAux reg mc fuel rest processed files expanded queries
      else
        walkAux reg mc fuel
          ((v.dependencies.foldl (depStep reg mc) (rest, queries)).1)
          (v.project_id :: processed)
          (add_version_files files v)
          (expanded ++ [v.project_id])
          ((v.dependencies.foldl (depStep reg mc) (rest, queries)).2) := rfl

/-! ### Invariants preserved by the walk -/

theorem walkAux_keys (reg : Registry) (mc : String) :
    ∀ fuel frontier processed files expanded queries r,
      walkAux reg mc fuel frontier processed files expanded queries = some r →
      dictKeys files ⊆ dictKeys r.files ∧
        ((dictKeys files).Nodup → (dictKeys r.files).Nodup) := by
  intro fuel
  induction fuel with
  | zero =>
    intro frontier processed files expanded queries r h
    cases frontier with
    | nil =>
      rw [walkAux_nil] at h
      cases h
      exact ⟨fun a ha => ha, id⟩
    | cons v rest => exact Option.noConfusion (walkAux_zero_cons reg mc v rest
        processed files expanded queries ▸ h)
  | succ fuel ih =>
    intro frontier processed files expanded queries r h
    cases frontier with
    | nil =>
      rw [walkAux_nil] at h
      cases h
      exact ⟨fun a ha => ha, id⟩
    | cons v rest =>
      rw [walkAux_succ_cons] at h
      by_cases hv : v.project_id ∈ processed
      · rw [if_pos hv] at h
        exact ih _ _ _ _ _ _ h
      · rw [if_neg hv] at h
        obtain ⟨h1, h2⟩ := ih _ _ _ _ _ _ h
        exact ⟨fun a ha => h1 (dictKeys_subset_add_version_files files v ha),
          fun hn => h2 (nodup_dictKeys_add_version_files v hn)⟩

theorem walkAux_expanded_nodup (reg : Registry) (mc : String) :
    ∀ fuel frontier processed files expanded queries r,
      walkAux reg mc fuel frontier processed files expanded queries = some r →
      expanded.Nodup → (∀ p ∈ expanded, p ∈ processed) →
      r.expanded.Nodup := by
  intro fuel
  induction fuel with
  | zero =>
    intro frontier processed files expanded queries r h hnd hsub
    cases frontier with
    | nil =>
      rw [walkAux_nil] at h
      cases h
      exact hnd
    | cons v rest => exact Option.noConfusion (walkAux_zero_cons reg mc v rest
        processed files expanded queries ▸ h)
  | succ fuel ih =>
    intro frontier processed files expanded queries r h hnd hsub
    cases frontier with
    | nil =>
      rw [walkAux_nil] at h
      cases h
      exact hnd
    | cons v rest =>
      rw [walkAux_succ_cons] at h
      by_cases hv : v.project_id ∈ processed
      · rw [if_pos hv] at h
        exact ih _ _ _ _ _ _ h hnd hsub
      · rw [if_neg hv] at h
        apply ih _ _ _ _ _ _ h
        · rw [List.nodup_append]
          refine ⟨hnd, List.nodup_singleton _, fun a ha hb => ?_⟩
          rw [List.mem_singleton] at hb
          exact hv (hb ▸ hsub a ha)
        · intro p hp
          rcases List.mem_append.mp hp with hp | hp
          · exact List.mem_cons_of_mem _ (hsub p hp)
          · rw [List.mem_singleton] at hp
            exact hp ▸ List.mem_cons_self _ _

/-! ### Termination of the walk -/

theorem mem_registryVersions_of_fetch {reg : Registry} {slug mc : String} {v : Version}
    (h : v ∈ fetch_mod_versions reg slug mc) : v ∈ registryVersions reg := by
  unfold fetch_mod_versions at h
  cases hl : lookupKey (slug, mc) reg.modVersions with
  | none => rw [hl] at h; simp at h
  | some l =>
    rw [hl] at h
    simp only [Option.getD_some] at h
    have hm := lookupKey_mem hl
    unfold registryVersions
    exact List.mem_flatten.mpr ⟨l, List.mem_map.mpr ⟨_, hm, rfl⟩, h⟩

theorem depStep_mem {reg : Registry} {mc : String} {acc : List Version × List Query}
    {dep : Dependency} {w : Version} (h : w ∈ (depStep reg mc acc dep).1) :
    w ∈ acc.1 ∨ w ∈ registryVersions reg := by
  by_cases hreq : dep.dependency_type = "required"
  · cases hl : lookupKey dep.project_id reg.projectSlug with
    | none =>
      simp [depStep, hreq, hl] at h
      exact Or.inl h
    | some slug =>
      cases hf : fetch_mod_versions reg slug mc with
      | nil =>
        simp [depStep, hreq, hl, hf] at h
        exact Or.inl h
      | cons v0 vs =>
        simp [depStep, hreq, hl, hf] at h
        rcases h with rfl | h
        · exact Or.inr (mem_registryVersions_of_fetch
            (by rw [hf]; exact List.mem_cons_self _ _))
        · exact Or.inl h
  · simp [depStep, hreq] at h
    exact Or.inl h

theorem depFold_mem (reg : Registry) (mc : String) (deps : List Dependency) :
    ∀ (fr : List Version) (qs : List Query) {w : Version},
      w ∈ (deps.foldl (depStep reg mc) (fr, qs)).1 →
      w ∈ fr ∨ w ∈ registryVersions reg := by
  induction deps with
  | nil => intro fr qs w h; exact Or.inl h
  | cons d t ih =>
    intro fr qs w h
    rw [List.foldl_cons] at h
    rcases ih (depStep reg mc (fr, qs) d).1 (depStep reg mc (fr, qs) d).2 h with h1 | h1
    · exact depStep_mem h1
    · exact Or.inr h1

theorem depStep_length (reg : Registry) (mc : String) (acc : List Version × List Query)
    (dep : Dependency) :
    (depStep reg mc acc dep).1.length ≤ acc.1.length + 1 ∧
      (¬ dep.dependency_type = "required" → (depStep reg mc acc dep).1 = acc.1) := by
  by_cases hreq : dep.dependency_type = "required"
  · refine ⟨?_, fun h => absurd hreq h⟩
    cases hl : lookupKey dep.project_id reg.projectSlug with
    | none => simp [depStep, hreq, hl]
    | some slug =>
      cases hf : fetch_mod_versions reg slug mc with
      | nil => simp [depStep, hreq, hl, hf]
      | cons v0 vs => simp [depStep, hreq, hl, hf]
  · exact ⟨by simp [depStep, hreq], fun _ => by simp [depStep, hreq]⟩

theorem depFold_length (reg : Registry) (mc : String) (deps : List Dependency) :
    ∀ (fr : List Version) (qs : List Query),
      (deps.foldl (depStep reg mc) (fr, qs)).1.length ≤
        fr.length + (deps.filter (fun d => d.dependency_type = "required")).length := by
  induction deps with
  | nil => intro fr qs; simp
  | cons d t ih =>
    intro fr qs
    rw [List.foldl_cons]
    have h2 : (List.foldl (depStep reg mc) (depStep reg mc (fr, qs) d) t).1.length ≤
        (depStep reg mc (fr, qs) d).1.length +
          (t.filter (fun d => d.dependency_type = "required")).length :=
      ih (depStep reg mc (fr, qs) d).1 (depStep reg mc (fr, qs) d).2
    by_cases hreq : d.dependency_type = "required"
    · rw [List.filter_cons_of_pos (by simp [hreq])]
      have h1 : (depStep reg mc (fr, qs) d).1.length ≤ fr.length + 1 :=
        (depStep_length reg mc (fr, qs) d).1
      simp only [List.length_cons]
      omega
    · rw [List.filter_cons_of_neg (by simp [hreq])]
      have h0 : (depStep reg mc (fr, qs) d).1 = fr :=
        (depStep_length reg mc (fr, qs) d).2 hreq
      rw [h0] at h2
      exact h2

theorem requiredDeps_le_depBound {reg : Registry} {seed v : Version}
    (h : v = seed ∨ v ∈ registryVersions reg) :
    (requiredDeps v).length ≤ depBound reg seed := by
  have hv : v ∈ seed :: registryVersions reg := by
    rcases h with rfl | h
    · exact List.mem_cons_self _ _
    · exact List.mem_cons_of_mem _ h
  exact List.single_le_sum (fun x _ => Nat.zero_le x) _
    (List.mem_map.mpr ⟨v, hv, rfl⟩)

theorem walkAux_isSome (reg : Registry) (seed : Version) (mc : String) :
    ∀ fuel frontier processed files expanded queries,
      (∀ v ∈ frontier, v = seed ∨ v ∈ registryVersions reg) →
      walkMeasure reg seed frontier processed ≤ fuel →
      (walkAux reg mc fuel frontier processed files expanded queries).isSome := by
  intro fuel
  induction fuel with
  | zero =>
    intro frontier processed files expanded queries hinv hm
    cases frontier with
    | nil => rw [walkAux_nil]; rfl
    | cons v rest =>
      exfalso
      unfold walkMeasure at hm
      simp only [List.length_cons] at hm
      omega
  | succ fuel ih =>
    intro frontier processed files expanded queries hinv hm
    cases frontier with
    | nil => rw [walkAux_nil]; rfl
    | cons v rest =>
      rw [walkAux_succ_cons]
      by_cases hv : v.project_id ∈ processed
      · rw [if_pos hv]
        apply ih rest processed files expanded queries
          (fun w hw => hinv w (List.mem_cons_of_mem _ hw))
        unfold walkMeasure at hm ⊢
        simp only [List.length_cons] at hm
        omega
      · rw [if_neg hv]
        apply ih
        · intro w hw
          rcases depFold_mem reg mc v.dependencies rest queries hw with h1 | h1
          · exact hinv w (List.mem_cons_of_mem _ h1)
          · exact Or.inr h1
        · have hlen : ((v.dependencies.foldl (depStep reg mc) (rest, queries)).1).length ≤
              rest.length + (requiredDeps v).length :=
            depFold_length reg mc v.dependencies rest queries
          have hreqb : (requiredDeps v).length ≤ depBound reg seed :=
            requiredDeps_le_depBound (hinv v (List.mem_cons_self _ _))
          have hvmem : v.project_id ∈
              (allPids reg seed).toFinset \ processed.toFinset := by
            rw [Finset.mem_sdiff, List.mem_toFinset, List.mem_toFinset]
            refine ⟨?_, hv⟩
            rcases hinv v (List.mem_cons_self _ _) with rfl | h1
            · exact List.mem_cons_self _ _
            · exact List.mem_cons_of_mem _ (List.mem_map.mpr ⟨v, h1, rfl⟩)
          have hcard : ((allPids reg seed).toFinset \
                (v.project_id :: processed).toFinset).card + 1 =
              ((allPids reg seed).toFinset \ processed.toFinset).card := by
            rw [List.toFinset_cons, Finset.sdiff_insert,
              Finset.card_erase_of_mem hvmem]
            have hpos : 0 < ((allPids reg seed).toFinset \ processed.toFinset).card :=
              Finset.card_pos.mpr ⟨_, hvmem⟩
            omega
          unfold walkMeasure at hm ⊢
          rw [← hcard] at hm
          have hmul : (((allPids reg seed).toFinset \
                  (v.project_id :: processed).toFinset).card + 1) *
                (depBound reg seed + 1) =
              ((allPids reg seed).toFinset \
                  (v.project_id :: processed).toFinset).card *
                (depBound reg seed + 1) + (depBound reg seed + 1) := by
            ring
          rw [hmul, List.length_cons] at hm
          omega

theorem walk_terminates (reg : Registry) (seed : Version) (mc : String) :
    (walkAux reg mc (fuelFor reg seed) [seed] [] [] [] []).isSome := by
  apply walkAux_isSome reg seed mc
  · intro v hv
    rw [List.mem_singleton] at hv
    exact Or.inl hv
  · unfold walkMeasure fuelFor
    rw [List.toFinset_nil, Finset.sdiff_empty, List.card_toFinset]
    simp

/-! ### Resolve-level corollaries -/

theorem resolve_eq (reg : Registry) (seed : Version) (mc : String) :
    ∃ r, walkAux reg mc (fuelFor reg seed) [seed] [] [] [] [] = some r ∧
      resolve_dependencies reg seed mc = r.files ∧
      resolve_expanded reg seed mc = r.expanded ∧
      resolve_queries reg seed mc = r.queries := by
  obtain ⟨r, hr⟩ := Option.isSome_iff_exists.mp (walk_terminates reg seed mc)
  refine ⟨r, hr, ?_, ?_, ?_⟩
  · unfold resolve_dependencies
    rw [hr]
  · unfold resolve_expanded
    rw [hr]
  · unfold resolve_queries
    rw [hr]

theorem resolve_keys_of_seed (reg : Registry) (seed : Version) (mc : String) {f : DistFile}
    (hf : f ∈ seed.files) :
    f.filename ∈ dictKeys (resolve_dependencies reg seed mc) := by
  obtain ⟨r, hr, hfiles, -, -⟩ := resolve_eq reg seed mc
  rw [hfiles]
  have hsucc : fuelFor reg seed = (fuelFor reg seed - 1) + 1 := by
    unfold fuelFor
    omega
  rw [hsucc, walkAux_succ_cons, if_neg (List.not_mem_nil _)] at hr
  exact (walkAux_keys reg mc _ _ _ _ _ _ r hr).1 (mem_dictKeys_add_version_files [] hf)

theorem nodup_resolve_keys (reg : Registry) (seed : Version) (mc : String) :
    (dictKeys (resolve_dependencies reg seed mc)).Nodup := by
  obtain ⟨r, hr, hfiles, -, -⟩ := resolve_eq reg seed mc
  rw [hfiles]
  exact (walkAux_keys reg mc _ _ _ _ _ _ r hr).2 List.nodup_nil

theorem nodup_resolve_expanded (reg : Registry) (seed : Version) (mc : String) :
    (resolve_expanded reg seed mc).Nodup := by
  obtain ⟨r, hr, -, hexp, -⟩ := resolve_eq reg seed mc
  rw [hexp]
  exact walkAux_expanded_nodup reg mc _ _ _ _ _ _ r hr List.nodup_nil
    (fun p hp => absurd hp (List.not_mem_nil p))

/-! ### Erasure of non-required dependency edges -/

theorem stripVersion_project_id (v : Version) :
    (stripVersion v).project_id = v.project_id := rfl

theorem add_version_files_strip (m : List (String × String)) (v : Version) :
    add_version_files m (stripVersion v) = add_version_files m v := rfl

theorem lookupKey_map_val {α β γ : Type} [DecidableEq α] (f : β → γ) (k : α)
    (l : List (α × β)) :
    lookupKey k (l.map (fun e => (e.1, f e.2))) = (lookupKey k l).map f := by
  induction l with
  | nil => rfl
  | cons p t ih =>
    by_cases hk : k = p.1
    · simp [lookupKey, hk]
    · simp [lookupKey, hk, ih]

theorem fetch_mod_versions_strip (reg : Registry) (slug mc : String) :
    fetch_mod_versions (stripRegistry reg) slug mc =
      (fetch_mod_versions reg slug mc).map stripVersion := by
  unfold fetch_mod_versions stripRegistry
  simp only []
  rw [lookupKey_map_val]
  cases lookupKey (slug, mc) reg.modVersions <;> simp

theorem depStep_strip (reg : Registry) (mc : String) (fr : List Version) (qs : List Query)
    (dep : Dependency) :
    depStep (stripRegistry reg) mc (fr.map stripVersion, qs) dep =
      ((depStep reg mc (fr, qs) dep).1.map stripVersion,
       (depStep reg mc (fr, qs) dep).2) := by
  by_cases hreq : dep.dependency_type = "required"
  · have hslug : (stripRegistry reg).projectSlug = reg.projectSlug := rfl
    cases hl : lookupKey dep.project_id reg.projectSlug with
    | none => simp [depStep, hreq, hslug, hl]
    | some slug =>
      cases hf : fetch_mod_versions reg slug mc with
      | nil => simp [depStep, hreq, hslug, hl, fetch_mod_versions_strip, hf]
      | cons v0 vs => simp [depStep, hreq, hslug, hl, fetch_mod_versions_strip, hf]
  · simp [depStep, hreq]

theorem depFold_strip (reg : Registry) (mc : String) (deps : List Dependency) :
    ∀ (fr : List Version) (qs : List Query),
      (deps.filter (fun d => d.dependency_type = "required")).foldl
          (depStep (stripRegistry reg) mc) (fr.map stripVersion, qs) =
        ((deps.foldl (depStep reg mc) (fr, qs)).1.map stripVersion,
         (deps.foldl (depStep reg mc) (fr, qs)).2) := by
  induction deps with
  | nil => intro fr qs; rfl
  | cons d t ih =>
    intro fr qs
    by_cases hreq : d.dependency_type = "required"
    · rw [List.filter_cons_of_pos (by simp [hreq]), List.foldl_cons, List.foldl_cons,
        depStep_strip]
      exact ih (depStep reg mc (fr, qs) d).1 (depStep reg mc (fr, qs) d).2
    · rw [List.filter_cons_of_neg (by simp [hreq]), List.foldl_cons]
      have h0 : depStep reg mc (fr, qs) d = (fr, qs) := by simp [depStep, hreq]
      rw [h0]
      exact ih fr qs

theorem walkAux_strip (reg : Registry) (mc : String) :
    ∀ fuel frontier processed files expanded queries,
      walkAux (stripRegistry reg) mc fuel (frontier.map stripVersion) processed files
          expanded queries =
        walkAux reg mc fuel frontier processed files expanded queries := by
  intro fuel
  induction fuel with
  | zero =>
    intro frontier processed files expanded queries
    cases frontier with
    | nil => rfl
    | cons v rest => rfl
  | succ fuel ih =>
    intro frontier processed files expanded queries
    cases frontier with
    | nil => rfl
    | cons v rest =>
      rw [List.map_cons, walkAux_succ_cons, walkAux_succ_cons, stripVersion_project_id]
      by_cases hv : v.project_id ∈ processed
      · rw [if_pos hv, if_pos hv]
        exact ih rest processed files expanded queries
      · rw [if_neg hv, if_neg hv]
        have hdeps : (stripVersion v).dependencies =
            v.dependencies.filter (fun d => d.dependency_type = "required") := rfl
        rw [hdeps, depFold_strip, add_version_files_strip]
        exact ih _ _ _ _ _

theorem registryVersions_strip (reg : Registry) :
    registryVersions (stripRegistry reg) = (registryVersions reg).map stripVersion := by
  unfold registryVersions stripRegistry
  simp only [List.map_map, List.map_flatten]
  congr 1

theorem requiredDeps_strip (v : Version) :
    requiredDeps (stripVersion v) = requiredDeps v := by
  simp [requiredDeps, stripVersion, List.filter_filter]

theorem allPids_strip (reg : Registry) (seed : Version) :
    allPids (stripRegistry reg) (stripVersion seed) = allPids reg seed := by
  unfold allPids
  rw [registryVersions_strip, stripVersion_project_id, List.map_map]
  rfl

theorem depBound_strip (reg : Registry) (seed : Version) :
    depBound (stripRegistry reg) (stripVersion seed) = depBound reg seed := by
  unfold depBound
  rw [registryVersions_strip, ← List.map_cons, List.map_map]
  apply congrArg List.sum
  apply List.map_congr_left
  intro v hv
  simp [Function.comp, requiredDeps_strip]

theorem fuelFor_strip (reg : Registry) (seed : Version) :
    fuelFor (stripRegistry reg) (stripVersion seed) = fuelFor reg seed := by
  unfold fuelFor
  rw [allPids_strip, depBound_strip]

theorem walkAux_strip_init (reg : Registry) (seed : Version) (mc : String) :
    walkAux (stripRegistry reg) mc (fuelFor (stripRegistry reg) (stripVersion seed))
        [stripVersion seed] [] [] [] [] =
      walkAux reg mc (fuelFor reg seed) [seed] [] [] [] [] := by
  rw [fuelFor_strip]
  have h : [stripVersion seed] = [seed].map stripVersion := rfl
  rw [h, walkAux_strip]

/-! ### Lemmas about the `/api/download` fold -/

theorem apiStep_files_mono (reg : Registry) (mc : String)
    (acc : List (String × String) × List Query) (slug : String) :
    dictKeys acc.1 ⊆ dictKeys (apiStep reg mc acc slug).1 := by
  cases hf : fetch_mod_versions reg slug mc with
  | nil => simp [apiStep, hf]
  | cons v vs =>
    simp only [apiStep, hf]
    exact dictKeys_subset_update _ _

theorem apiFold_files_mono (reg : Registry) (mc : String) (slugs : List String) :
    ∀ acc, dictKeys acc.1 ⊆ dictKeys ((slugs.foldl (apiStep reg mc) acc).1) := by
  induction slugs with
  | nil => exact fun acc a h => h
  | cons s t ih =>
    intro acc a h
    rw [List.foldl_cons]
    exact ih (apiStep reg mc acc s) (apiStep_files_mono reg mc acc s h)

theorem apiStep_keys_nodup (reg : Registry) (mc : String)
    {acc : List (String × String) × List Query} (slug : String)
    (h : (dictKeys acc.1).Nodup) : (dictKeys (apiStep reg mc acc slug).1).Nodup := by
  cases hf : fetch_mod_versions reg slug mc with
  | nil => simpa [apiStep, hf] using h
  | cons v vs =>
    simp only [apiStep, hf]
    exact nodup_dictKeys_update _ h

theorem apiFold_keys_nodup (reg : Registry) (mc : String) (slugs : List String) :
    ∀ {acc}, (dictKeys acc.1).Nodup →
      (dictKeys ((slugs.foldl (apiStep reg mc) acc).1)).Nodup := by
  induction slugs with
  | nil => exact fun h => h
  | cons s t ih =>
    intro acc h
    rw [List.foldl_cons]
    exact ih (apiStep_keys_nodup reg mc s h)

theorem apiFold_files_empty (reg : Registry) (mc : String) (slugs : List String) :
    ∀ acc, (∀ slug ∈ slugs, fetch_mod_versions reg slug mc = []) →
      ((slugs.foldl (apiStep reg mc) acc).1) = acc.1 := by
  induction slugs with
  | nil => exact fun acc _ => rfl
  | cons s t ih =>
    intro acc hall
    rw [List.foldl_cons]
    have hs : fetch_mod_versions reg s mc = [] := hall s (List.mem_cons_self _ _)
    have ht := ih (apiStep reg mc acc s)
      (fun slug hslug => hall slug (List.mem_cons_of_mem _ hslug))
    rw [ht]
    simp [apiStep, hs]

theorem apiFold_key_of_root (reg : Registry) (mc : String) (slugs : List String) :
    ∀ acc {slug : String} {v : Version} {vs : List Version} {f : DistFile},
      slug ∈ slugs → fetch_mod_versions reg slug mc = v :: vs → f ∈ v.files →
      f.filename ∈ dictKeys ((slugs.foldl (apiStep reg mc) acc).1) := by
  induction slugs with
  | nil =>
    intro acc slug v vs f h
    exact absurd h (List.not_mem_nil slug)
  | cons s t ih =>
    intro acc slug v vs f hmem hf hfile
    rw [List.foldl_cons]
    rcases List.mem_cons.mp hmem with rfl | hmem
    · apply apiFold_files_mono reg mc t (apiStep reg mc acc slug)
      simp only [apiStep, hf]
      exact mem_dictKeys_update_right _ _ (resolve_keys_of_seed reg v mc hfile)
    · exact ih (apiStep reg mc acc s) hmem hf hfile

/-! ### Claim theorems -/

/-- Claim C1, counterexample: the code raises the total-failure error
whenever the accumulated mapping is empty, not only when every root has
zero matching version records. In `regEmptyFiles` the root `r` has a
matching VersionRecord (its version list is non-empty), yet because that
record carries no files the handler still aborts with 404, contradicting
the claim that a matching root always yields a mapping with no error. -/
theorem claim1_counterexample :
    ¬ fetch_mod_versions regEmptyFiles "r" "1.20.1" = [] ∧
      api_download regEmptyFiles (some "1.20.1") (some ["r"]) = Except.error 404 :=
  ⟨by decide, rfl⟩

/-- Claim C1 as amended: on a valid request, the handler fails with 404
exactly when the accumulated mapping is empty. If every root has zero
matching VersionRecords the error is raised; and whenever some root has a
matching VersionRecord whose chosen version contributes at least one
distribution file, a mapping containing that filename is returned with no
error, even when other roots were unsatisfiable. -/
theorem claim1_amended (reg : Registry) (mc : String) (slugs : List String)
    (hmc : ¬ mc = "") (hs : ¬ slugs = []) :
    ((∀ slug ∈ slugs, fetch_mod_versions reg slug mc = []) →
      api_download reg (some mc) (some slugs) = Except.error 404) ∧
    (∀ slug ∈ slugs, ∀ (v : Version) (vs : List Version) (f : DistFile),
      fetch_mod_versions reg slug mc = v :: vs → f ∈ v.files →
      ∃ m, api_download reg (some mc) (some slugs) = Except.ok m ∧
        f.filename ∈ dictKeys m) := by
  constructor
  · intro hall
    have hempty : ((slugs.foldl (apiStep reg mc) ([], [])).1) = [] :=
      apiFold_files_empty reg mc slugs ([], []) hall
    simp [api_download, api_download_run, hmc, hs, hempty]
  · intro slug hslug v vs f hf hfile
    have hkey : f.filename ∈ dictKeys ((slugs.foldl (apiStep reg mc) ([], [])).1) :=
      apiFold_key_of_root reg mc slugs ([], []) hslug hf hfile
    have hne : ¬ ((slugs.foldl (apiStep reg mc) ([], [])).1) = [] := by
      intro h0
      rw [h0] at hkey
      exact List.not_mem_nil _ hkey
    refine ⟨(slugs.foldl (apiStep reg mc) ([], [])).1, ?_, hkey⟩
    simp [api_download, api_download_run, hmc, hs, hne]

/-- Claim C1 witness: concrete instantiation of the amended claim on the
sodium scenario. -/
theorem claim1_witness :
    ∃ m, api_download regScenario (some "1.20.1") (some ["sodium"]) = Except.ok m ∧
      "sodium.jar" ∈ dictKeys m :=
  (claim1_amended regScenario "1.20.1" ["sodium"] (by decide) (by decide)).2
    "sodium" (by decide) sodiumVer [] ⟨"sodium.jar", "url1"⟩ (by decide) (by decide)

/-- Claim C2: the resolution walk terminates (the walk with the computed
fuel drains its frontier and returns a result) for every registry, seed
and release, including cyclic dependency graphs; within one call the
expanded project ids are pairwise distinct, so each project is expanded at
most once; and a popped version record whose project id is already in the
visited set is discarded without any effect on the state. -/
theorem claim2_termination_dedup (reg : Registry) (mc : String) (seed : Version) :
    ((walkAux reg mc (fuelFor reg seed) [seed] [] [] [] []).isSome ∧
      (resolve_expanded reg seed mc).Nodup) ∧
    (∀ (fuel : Nat) (v : Version) rest processed files expanded queries,
      v.project_id ∈ processed →
      walkAux reg mc (fuel + 1) (v :: rest) processed files expanded queries =
        walkAux reg mc fuel rest processed files expanded queries) := by
  refine ⟨⟨walk_terminates reg seed mc, nodup_resolve_expanded reg seed mc⟩, ?_⟩
  intro fuel v rest processed files expanded queries hv
  rw [walkAux_succ_cons, if_pos hv]

/-- Claim C2 witness: the cyclic registry (A requires B, B requires A)
terminates, visits each project once, and a concrete already-visited
record is discarded without effect. -/
theorem claim2_witness :
    ((walkAux regCycle "1.20.1" (fuelFor regCycle cycleVerA) [cycleVerA] [] [] [] []).isSome ∧
      (resolve_expanded regCycle cycleVerA "1.20.1").Nodup) ∧
    walkAux regCycle "1.20.1" 1 [cycleVerA] ["P-a"] [] [] [] =
      walkAux regCycle "1.20.1" 0 [] ["P-a"] [] [] [] :=
  ⟨(claim2_termination_dedup regCycle "1.20.1" cycleVerA).1,
   (claim2_termination_dedup regCycle "1.20.1" cycleVerA).2 0 cycleVerA [] ["P-a"]
     [] [] [] (by decide)⟩

/-- Claim C3, counterexample: two distinct roots `r1` and `r2` both carry
a required edge to the shared project `P-shared`, yet over the whole
`/api/download` call the shared project is looked up twice and its version
list fetched twice, because `resolve_dependencies` is called with a fresh
visited set per root; the claim says exactly once. -/
theorem claim3_counterexample :
    (api_download_queries regShared (some "1.20.1") (some ["r1", "r2"])).count
        (Query.projectLookup "P-shared") = 2 ∧
    (api_download_queries regShared (some "1.20.1") (some ["r1", "r2"])).count
        (Query.listVersions "shared" "1.20.1") = 2 ∧
    ¬ (api_download_queries regShared (some "1.20.1") (some ["r1", "r2"])).count
        (Query.projectLookup "P-shared") = 1 := by
  refine ⟨by decide, by decide, by decide⟩

/-- Claim C3 as amended: within one `resolve_dependencies` walk each
project is expanded (files added, edges followed) at most once, and the
final mapping of a successful `/api/download` call holds each filename key
exactly once; but a project shared by several roots is looked up and
fetched once per root whose walk reaches it, since the visited set is not
shared across roots. -/
theorem claim3_amended (reg : Registry) (seed : Version) (mc : String)
    (mcOpt : Option String) (mods : Option (List String)) :
    (resolve_expanded reg seed mc).Nodup ∧
    ∀ m, api_download reg mcOpt mods = Except.ok m → (dictKeys m).Nodup := by
  refine ⟨nodup_resolve_expanded reg seed mc, ?_⟩
  intro m hm
  simp only [api_download, api_download_run] at hm
  by_cases hcond : mcOpt = none ∨ mcOpt = some "" ∨ mods.getD [] = []
  · rw [if_pos hcond] at hm
    exact Except.noConfusion hm
  · rw [if_neg hcond] at hm
    split at hm
    · exact Except.noConfusion hm
    · injection hm with hm
      subst hm
      exact apiFold_keys_nodup reg (mcOpt.getD "") (mods.getD []) List.nodup_nil

/-- Claim C3 witness: concrete instantiation of the amended claim on the
shared-dependency registry. -/
theorem claim3_witness :
    (resolve_expanded regShared (⟨"P-r1", [⟨"r1.jar", "u1"⟩],
        [⟨"required", "P-shared"⟩]⟩ : Version) "1.20.1").Nodup ∧
    (dictKeys [("r1.jar", "u1"), ("shared.jar", "u3"), ("r2.jar", "u2")]).Nodup := by
  have h := claim3_amended regShared
    (⟨"P-r1", [⟨"r1.jar", "u1"⟩], [⟨"required", "P-shared"⟩]⟩ : Version) "1.20.1"
    (some "1.20.1") (some ["r1", "r2"])
  exact ⟨h.1, h.2 [("r1.jar", "u1"), ("shared.jar", "u3"), ("r2.jar", "u2")] rfl⟩

/-- Claim C4: a required dependency edge whose project lookup is absent
(registry 404), or whose version list for the release is empty, is skipped
silently: the frontier is unchanged, so resolution continues and no error
is raised; concretely, with the broken-dependency registry the root sodium
resolves to exactly the mapping with the single entry `sodium.jar`. -/
theorem claim4_skip_broken_deps :
    (∀ (reg : Registry) (mc : String) (fr : List Version) (qs : List Query)
        (dep : Dependency),
      dep.dependency_type = "required" →
      lookupKey dep.project_id reg.projectSlug = none →
      depStep reg mc (fr, qs) dep = (fr, qs ++ [Query.projectLookup dep.project_id])) ∧
    (∀ (reg : Registry) (mc : String) (fr : List Version) (qs : List Query)
        (dep : Dependency) (slug : String),
      dep.dependency_type = "required" →
      lookupKey dep.project_id reg.projectSlug = some slug →
      fetch_mod_versions reg slug mc = [] →
      depStep reg mc (fr, qs) dep =
        (fr, qs ++ [Query.projectLookup dep.project_id, Query.listVersions slug mc])) ∧
    resolve_dependencies regBrokenDep sodiumVer "1.20.1" = [("sodium.jar", "url1")] ∧
    api_download regBrokenDep (some "1.20.1") (some ["sodium"]) =
      Except.ok [("sodium.jar", "url1")] := by
  refine ⟨?_, ?_, rfl, rfl⟩
  · intro reg mc fr qs dep hreq hl
    simp [depStep, hreq, hl]
  · intro reg mc fr qs dep slug hreq hl hf
    simp [depStep, hreq, hl, hf]

/-- Claim C4 witness: concrete instantiation on the broken-dependency
registry, where the fabric-api version list is empty for the release. -/
theorem claim4_witness :
    depStep regBrokenDep "1.20.1" ([], []) ⟨"required", "P-fabric-api"⟩ =
      ([], [Query.projectLookup "P-fabric-api",
            Query.listVersions "fabric-api" "1.20.1"]) :=
  claim4_skip_broken_deps.2.1 regBrokenDep "1.20.1" [] []
    ⟨"required", "P-fabric-api"⟩ "fabric-api" rfl (by decide) (by decide)

/-- Claim C5: dependency edges whose requirement kind is not `required`
are inert. Erasing every non-required edge from the registry and the seed
changes neither the result mapping, nor the query trace (so no project
lookup or version fetch is ever triggered by a non-required edge), nor the
set of expanded projects (so a project contributes files only when reached
through the seed or required edges); moreover processing a single
non-required edge leaves the walk state untouched. -/
theorem claim5_nonrequired_erasure (reg : Registry) (seed : Version) (mc : String) :
    resolve_dependencies (stripRegistry reg) (stripVersion seed) mc =
        resolve_dependencies reg seed mc ∧
    resolve_queries (stripRegistry reg) (stripVersion seed) mc =
        resolve_queries reg seed mc ∧
    resolve_expanded (stripRegistry reg) (stripVersion seed) mc =
        resolve_expanded reg seed mc ∧
    (∀ (fr : List Version) (qs : List Query) (dep : Dependency),
      ¬ dep.dependency_type = "required" → depStep reg mc (fr, qs) dep = (fr, qs)) := by
  refine ⟨?_, ?_, ?_, fun fr qs dep h => by simp [depStep, h]⟩
  · unfold resolve_dependencies
    rw [walkAux_strip_init]
  · unfold resolve_queries
    rw [walkAux_strip_init]
  · unfold resolve_expanded
    rw [walkAux_strip_init]

/-- Claim C5 witness: concrete instantiation on the sodium scenario with
an optional edge. -/
theorem claim5_witness :
    resolve_dependencies (stripRegistry regScenario) (stripVersion sodiumVer) "1.20.1" =
        resolve_dependencies regScenario sodiumVer "1.20.1" ∧
    depStep regScenario "1.20.1" ([], []) ⟨"optional", "P-extra"⟩ = ([], []) :=
  ⟨(claim5_nonrequired_erasure regScenario sodiumVer "1.20.1").1,
   (claim5_nonrequired_erasure regScenario sodiumVer "1.20.1").2.2.2 [] []
     ⟨"optional", "P-extra"⟩ (by decide)⟩

/-- Claim C6: on the registry of the spec scenario (sodium with one
matching version, a required edge to `P-fabric-api`, which maps to
fabric-api with one matching dependency-free version), resolving the root
set consisting of sodium for release 1.20.1 returns exactly the mapping
with `sodium.jar` bound to url1 and `fabric-api.jar` bound to url2. -/
theorem claim6_scenario :
    api_download regScenario (some "1.20.1") (some ["sodium"]) =
      Except.ok [("sodium.jar", "url1"), ("fabric-api.jar", "url2")] ∧
    resolve_dependencies regScenario sodiumVer "1.20.1" =
      [("sodium.jar", "url1"), ("fabric-api.jar", "url2")] :=
  ⟨rfl, rfl⟩

/-- Claim C7: result-dict writes are last-write-wins per filename. Looking
up a key after a sequence of writes returns the value of the last write of
that key when one exists (and the prior binding otherwise); a single write
never removes any existing key; and the mapping produced by
`resolve_dependencies` binds each filename key exactly once. -/
theorem claim7_last_write_wins :
    (∀ (m l : List (String × String)) (a : String),
      lookupKey a (dictUpdate m l) =
        ((l.reverse.find? (fun p => a == p.1)).map Prod.snd).or (lookupKey a m)) ∧
    (∀ (m : List (String × String)) (k v : String),
      lookupKey k (dictInsert m k v) = some v ∧
      dictKeys m ⊆ dictKeys (dictInsert m k v)) ∧
    (∀ (reg : Registry) (seed : Version) (mc : String),
      (dictKeys (resolve_dependencies reg seed mc)).Nodup) :=
  ⟨fun m l a => lookupKey_dictUpdate l m a,
   fun m k v => ⟨lookupKey_dictInsert_self m k v, dictKeys_subset_insert m k v⟩,
   fun reg seed mc => nodup_resolve_keys reg seed mc⟩

/-- Claim C7 witness: concrete instantiation of the last-write-wins
property and of the result-key discipline. -/
theorem claim7_witness :
    lookupKey "sodium.jar" (dictUpdate [("sodium.jar", "u1")] [("sodium.jar", "u2")]) =
        some "u2" ∧
    "sodium.jar" ∈ dictKeys (dictInsert [("sodium.jar", "u1")] "sodium.jar" "u2") ∧
    (dictKeys (resolve_dependencies regScenario sodiumVer "1.20.1")).Nodup := by
  refine ⟨?_, ?_, claim7_last_write_wins.2.2 regScenario sodiumVer "1.20.1"⟩
  · rw [claim7_last_write_wins.1 [("sodium.jar", "u1")] [("sodium.jar", "u2")]
      "sodium.jar"]
    decide
  · exact (claim7_last_write_wins.2.1 [("sodium.jar", "u1")] "sodium.jar" "u2").2
      (by decide)

/-- Claim C8, counterexample: the registry client functions recover only
non-200 HTTP statuses; a transport-level exception raised by the HTTP
library (modelled as the error branch of the HTTP layer) propagates
uncaught out of both client functions, contradicting the claim that no
registry failure ever propagates an exception into the caller. -/
theorem claim8_counterexample :
    fetch_mod_versions_http (Except.error "ConnectionError") =
        Except.error "ConnectionError" ∧
    (∀ l : List Version,
      ¬ fetch_mod_versions_http (Except.error "ConnectionError") = Except.ok l) ∧
    fetch_fabric_mods (Except.error "ConnectionError") =
        Except.error "ConnectionError" :=
  ⟨rfl, fun _ h => Except.noConfusion h, rfl⟩

/-- Claim C8 as amended: when the HTTP transport returns a response, both
registry client operations always return a parsed result or an empty list
(an empty list for any non-200 status), never an exception; but when the
transport itself raises, the exception propagates uncaught. -/
theorem claim8_amended :
    (∀ (status : Nat) (hits : List SearchHit),
      fetch_fabric_mods (Except.ok (status, hits)) =
        Except.ok (if status = 200 then hits.map (fun mod => (mod.slug, mod.title))
          else [])) ∧
    (∀ (status : Nat) (vers : List Version),
      fetch_mod_versions_http (Except.ok (status, vers)) =
        Except.ok (if status = 200 then vers else [])) ∧
    (∀ e : String,
      fetch_fabric_mods (Except.error e) = Except.error e ∧
      fetch_mod_versions_http (Except.error e) = Except.error e) := by
  refine ⟨?_, ?_, fun e => ⟨rfl, rfl⟩⟩
  · intro status hits
    by_cases h : status = 200 <;>
      simp [fetch_fabric_mods, h, bind, Except.bind, pure, Except.pure]
  · intro status vers
    by_cases h : status = 200 <;>
      simp [fetch_mod_versions_http, h, bind, Except.bind, pure, Except.pure]

/-- Claim C9: the download endpoint rejects a request whose release
version is missing or empty, or whose root package list is missing or
empty, with HTTP 400, and in that case issues no registry query at all. -/
theorem claim9_reject_invalid (reg : Registry) (mcOpt : Option String)
    (mods : Option (List String))
    (h : mcOpt = none ∨ mcOpt = some "" ∨ mods.getD [] = []) :
    api_download reg mcOpt mods = Except.error 400 ∧
      api_download_queries reg mcOpt mods = [] := by
  simp only [api_download, api_download_queries, api_download_run]
  rw [if_pos h]
  exact ⟨rfl, rfl⟩

/-- Claim C9 witness: concrete rejected requests. -/
theorem claim9_witness :
    (api_download regScenario none (some ["sodium"]) = Except.error 400 ∧
      api_download_queries regScenario none (some ["sodium"]) = []) ∧
    (api_download regScenario (some "") (some ["sodium"]) = Except.error 400 ∧
      api_download_queries regScenario (some "") (some ["sodium"]) = []) ∧
    (api_download regScenario (some "1.20.1") (some []) = Except.error 400 ∧
      api_download_queries regScenario (some "1.20.1") (some []) = []) ∧
    (api_download regScenario (some "1.20.1") none = Except.error 400 ∧
      api_download_queries regScenario (some "1.20.1") none = []) :=
  ⟨claim9_reject_invalid regScenario none (some ["sodium"]) (Or.inl rfl),
   claim9_reject_invalid regScenario (some "") (some ["sodium"]) (Or.inr (Or.inl rfl)),
   claim9_reject_invalid regScenario (some "1.20.1") (some []) (Or.inr (Or.inr rfl)),
   claim9_reject_invalid regScenario (some "1.20.1") none (Or.inr (Or.inr rfl))⟩

/-- Claim C10: every filename among the seed version record files is a key
of the mapping returned by `resolve_dependencies`, and during the walk the
key set of the accumulating dict only ever grows: the keys of the dict at
any intermediate state are a subset of the keys of the final result. -/
theorem claim10_seed_filenames (reg : Registry) (seed : Version) (mc : String) :
    (∀ f ∈ seed.files, f.filename ∈ dictKeys (resolve_dependencies reg seed mc)) ∧
    (∀ fuel frontier processed files expanded queries r,
      walkAux reg mc fuel frontier processed files expanded queries = some r →
      dictKeys files ⊆ dictKeys r.files) :=
  ⟨fun _ hf => resolve_keys_of_seed reg seed mc hf,
   fun fuel frontier processed files expanded queries r h =>
     (walkAux_keys reg mc fuel frontier processed files expanded queries r h).1⟩

/-- Claim C10 witness: concrete instantiation on the sodium scenario. -/
theorem claim10_witness :
    "sodium.jar" ∈ dictKeys (resolve_dependencies regScenario sodiumVer "1.20.1") :=
  (claim10_seed_filenames regScenario sodiumVer "1.20.1").1
    ⟨"sodium.jar", "url1"⟩ (by decide)

end ModsDownloader

